import Mathlib

/-!
Verification of the level-generation core of the color-sorting game
(`src/generation/generate_levels.py`).

Boards are lists of bases (stacks of colored objects, last element = top),
paired one-to-one with a list of capacities (`heights`).  The development
embeds the board predicate `_solved`, the forward-move successor
enumeration `_next_states`, the predecessor enumeration `back_propagate`,
the scrambling move enumeration from `scramble`, and the breadth-first
solver `solve_level`, and proves the specified properties about them.
-/

namespace ColorSort

variable {α : Type} [DecidableEq α]

/-- Length of the maximal run of equal elements at the top (end) of a base.
Embeds the `colour = b[-1]; run = 1; scan downward while equal` idiom used
by both `_next_states` and `back_propagate`. -/
def topRun (l : List α) : Nat :=
  match l.reverse with
  | [] => 0
  | c :: rest => 1 + (rest.takeWhile (fun o => o == c)).length

/-- Move `mv` objects from the top of base `i` onto the top of base `j`
(order preserved).  Embeds `moved = b[i][-mv:]; b[i] = b[i][:-mv];
b[j].extend(moved)` acting on a fresh copy, for `i ≠ j`. -/
def applyTransfer (bases : List (List α)) (i j mv : Nat) : List (List α) :=
  let src := bases.getD i []
  let keep := src.take (src.length - mv)
  let moved := src.drop (src.length - mv)
  (bases.set i keep).set j (bases.getD j [] ++ moved)

/-- One base of the solved predicate `_solved`: empty, or full to its
height with a single colour. -/
def solvedBase (b : List α) (h : Nat) : Bool :=
  match b with
  | [] => true
  | c :: _ => b.length == h && b.all fun o => o == c

/-- The solved predicate `_solved`: every base is empty, or full to its
height with a single colour. -/
def solvedState (bases : List (List α)) (heights : List Nat) : Bool :=
  (bases.zip heights).all fun p => solvedBase p.1 p.2

/-- `_next_states`: all boards reachable by one legal forward move, in the
source's enumeration order (source index, then destination index, then
transfer count, each ascending). -/
def nextStates (bases : List (List α)) (heights : List Nat) :
    List (List (List α)) :=
  (List.range bases.length).flatMap fun i =>
    let src := bases.getD i []
    if src.isEmpty then []
    else
      let group := topRun src
      (List.range bases.length).flatMap fun j =>
        if i = j then []
        else
          let tgt := bases.getD j []
          if tgt.length = heights.getD j 0 then []
          else if tgt ≠ [] ∧ tgt.getLast? ≠ src.getLast? then []
          else
            let free := heights.getD j 0 - tgt.length
            (List.range (min group free)).map fun k => applyTransfer bases i j (k + 1)

/-- The legal forward moves, written from the specification's description:
for each non-empty source base `i` with top uniform run length `g`, for
each other base `j` with free capacity `f > 0` whose top object (if any)
equals the source's top colour, one `(i, j, count)` triple per `count` in
`1..min(g, f)`; source index ascending, then destination index ascending,
then count ascending. -/
def specForwardMoves (bases : List (List α)) (heights : List Nat) :
    List (Nat × Nat × Nat) :=
  (List.range bases.length).flatMap fun i =>
    let src := bases.getD i []
    if src.isEmpty then []
    else
      let g := topRun src
      (List.range bases.length).flatMap fun j =>
        if i = j then []
        else
          let tgt := bases.getD j []
          let f := heights.getD j 0 - tgt.length
          if 0 < f ∧ (tgt = [] ∨ tgt.getLast? = src.getLast?) then
            (List.range (min g f)).map fun k => (i, j, k + 1)
          else []

/-- The reverse candidate moves enumerated inside one `scramble` iteration:
every `(i, j, mv)` with `i ≠ j`, source `i` non-empty, destination `j` not
full, and `mv` in `1..min(len(src), base_height - len(tgt))`; no colour
restriction. -/
def scrambleMoves (bases : List (List α)) (base_height : Nat) :
    List (Nat × Nat × Nat) :=
  (List.range bases.length).flatMap fun i =>
    let src := bases.getD i []
    if src.isEmpty then []
    else
      (List.range bases.length).flatMap fun j =>
        if i = j then []
        else
          let tgt := bases.getD j []
          if tgt.length = base_height then []
          else
            let maxMove := min src.length (base_height - tgt.length)
            (List.range maxMove).map fun k => (i, j, k + 1)

/-- Run a chosen sequence of scramble moves, checking at each step that the
chosen move is among the candidates `scramble` enumerates; `none` if some
move is not a candidate at its step. -/
def scrambleRun (base_height : Nat) (bases : List (List α)) :
    List (Nat × Nat × Nat) → Option (List (List α))
  | [] => some bases
  | m :: ms =>
    if m ∈ scrambleMoves bases base_height then
      scrambleRun base_height (applyTransfer bases m.1 m.2.1 m.2.2) ms
    else none

/-- The candidate loop of `back_propagate`: for each non-empty base `tgt`
with top uniform run `run`, each group size `r` in `1..run` and each other
base `src` with room for the group, rebuild the predecessor by moving the
top-`r` group of `tgt` onto `src`, keeping it only when the original
forward move would be legal and the candidate is not itself solved. -/
def backPropagateList (bases : List (List α)) (heights : List Nat) :
    List (List (List α)) :=
  (List.range bases.length).flatMap fun tgt =>
    let sb := bases.getD tgt []
    if sb.isEmpty then []
    else
      let run := topRun sb
      (List.range run).flatMap fun r0 =>
        let r := r0 + 1
        let group := sb.drop (sb.length - r)
        (List.range bases.length).filterMap fun src =>
          if src = tgt then none
          else if heights.getD src 0 < (bases.getD src []).length + r then none
          else
            let newSrc := bases.getD src [] ++ group
            let newTgt := sb.take (sb.length - r)
            if newTgt ≠ [] ∧ newTgt.getLast? ≠ sb.getLast? then none
            else
              let candidate := (bases.set src newSrc).set tgt newTgt
              if solvedState candidate heights then none else some candidate

/-- `back_propagate`: every predecessor board reaching `bases` in one legal
forward move, except those already solved; raises (here: `Except.error`)
when the input is not solved. -/
def back_propagate (bases : List (List α)) (heights : List Nat) :
    Except String (List (List (List α))) :=
  if solvedState bases heights = false then
    .error "back_propagate expects a solved configuration"
  else
    .ok (backPropagateList bases heights)

/-- True exactly when `back_propagate` raises. -/
def raisesOn (e : Except String (List (List (List α)))) : Bool :=
  match e with
  | .error _ => true
  | .ok _ => false

/-- A serialized level: rows of cells, each cell a `baseHeight` paired with
its object list. -/
def parseLevel (level : List (List (Nat × List α))) :
    List (List α) × List Nat :=
  (level.flatten.map fun cell => cell.2, level.flatten.map fun cell => cell.1)

/-- The multiset of all objects on a board. -/
def objs (bases : List (List α)) : Multiset α :=
  (bases.map fun b => Multiset.ofList b).sum

/-- One pass of the successor loop in `solve_level`: count every generated
state in `explored`, and enqueue (and mark visited) those not yet
visited. -/
def pushStates :
    List (List (List α)) →
    List (List (List α)) × List (List (List α)) × Nat →
    List (List (List α)) × List (List (List α)) × Nat
  | [], acc => acc
  | n :: ns, (q, v, e) =>
    if n ∈ v then pushStates ns (q, v, e + 1)
    else pushStates ns (q ++ [n], v ++ [n], e + 1)

/-- The breadth-first search loop of `solve_level`, with explicit fuel: one
unit of fuel per queue pop.  `none` means the fuel ran out (shown below to
never happen for the fuel bound `solve_level` supplies). -/
def bfsAux (heights : List Nat) :
    Nat → List (List (List α)) → List (List (List α)) → Nat →
    Option (Bool × Nat)
  | 0, _, _, _ => none
  | _ + 1, [], _, explored => some (false, explored)
  | fuel + 1, cur :: queue, visited, explored =>
    if solvedState cur heights then some (true, explored)
    else
      let step := pushStates (nextStates cur heights) (queue, visited, explored)
      bfsAux heights fuel step.1 step.2.1 step.2.2

/-- The BFS loop instrumented to also return the final visited list (in
insertion order); its first component agrees with `bfsAux`. -/
def bfsAuxV (heights : List Nat) :
    Nat → List (List (List α)) → List (List (List α)) → Nat →
    Option ((Bool × Nat) × List (List (List α)))
  | 0, _, _, _ => none
  | _ + 1, [], visited, explored => some ((false, explored), visited)
  | fuel + 1, cur :: queue, visited, explored =>
    if solvedState cur heights then some ((true, explored), visited)
    else
      let step := pushStates (nextStates cur heights) (queue, visited, explored)
      bfsAuxV heights fuel step.1 step.2.1 step.2.2

/-- Fuel that always suffices for the search from `bases`: one more than
`K ^ (sum of per-base length bounds)`, an upper bound on the number of
distinct boards the search can ever visit (`K` is two more than the number
of distinct colours on the board). -/
def fuelBound (bases : List (List α)) (heights : List Nat) : Nat :=
  let K := bases.flatten.dedup.length + 2
  K ^ (List.zipWith max (bases.map List.length) heights).sum + 1

/-- `solve_level`: parse the level, then breadth-first search from its
board under the legal forward moves, returning whether a solved state is
reachable together with the count of generated successor states. -/
def solve_level (level : List (List (Nat × List α))) : Option (Bool × Nat) :=
  let p := parseLevel level
  bfsAux p.2 (fuelBound p.1 p.2) [p.1] [p.1] 0

/-- One forward step: `b'` is a successor of `b`. -/
def StepB (heights : List Nat) (b b' : List (List α)) : Prop :=
  b' ∈ nextStates b heights

/-- Reachability by zero or more legal forward moves. -/
def ReachB (heights : List Nat) : List (List α) → List (List α) → Prop :=
  Relation.ReflTransGen (StepB heights)

/-- Every base fits within its capacity. -/
def withinCaps (bases : List (List α)) (heights : List Nat) : Prop :=
  ∀ k, k < bases.length → (bases.getD k []).length ≤ heights.getD k 0

/-- Shape bound for the termination argument of the solver: the board has
one base per entry of `H`, each base within its bound and drawing its
objects from `colors`. -/
def BoundedBy (colors : List α) (H : List Nat) (b : List (List α)) : Prop :=
  b.length = H.length ∧
  ∀ k, k < b.length →
    (b.getD k []).length ≤ H.getD k 0 ∧ ∀ x ∈ b.getD k [], x ∈ colors

/-- Little-endian positional encoding of a base, digit `d a + 1` per
object, base `K`. -/
def encodeList (K : Nat) (d : α → Nat) : List α → Nat
  | [] => 0
  | a :: l => (d a + 1) + K * encodeList K d l

/-- Mixed-radix encoding of a board, one `K ^ H_k` block per base. -/
def encodeBoard (K : Nat) (d : α → Nat) : List Nat → List (List α) → Nat
  | _, [] => 0
  | [], _ :: _ => 0
  | H :: Hs, b :: bs => encodeList K d b + K ^ H * encodeBoard K d Hs bs

/-! ### Basic lemmas about membership, transfers and object conservation -/

lemma mem_ite_nil_left {β : Type} {P : Prop} [Decidable P] {l : List β} {x : β} :
    (x ∈ if P then ([] : List β) else l) ↔ ¬P ∧ x ∈ l := by
  split <;> simp_all

lemma mem_ite_nil_right {β : Type} {P : Prop} [Decidable P] {l : List β} {x : β} :
    (x ∈ if P then l else ([] : List β)) ↔ P ∧ x ∈ l := by
  split <;> simp_all

lemma length_applyTransfer (bases : List (List α)) (i j mv : Nat) :
    (applyTransfer bases i j mv).length = bases.length := by
  simp [applyTransfer]

lemma getD_applyTransfer_src {bases : List (List α)} {i j : Nat} (mv : Nat)
    (hij : i ≠ j) (hi : i < bases.length) :
    (applyTransfer bases i j mv).getD i []
      = (bases.getD i []).take ((bases.getD i []).length - mv) := by
  simp [applyTransfer, List.getD_eq_getElem?_getD, List.getElem?_set_ne hij.symm,
    List.getElem?_set_self, hi]

lemma getD_applyTransfer_tgt {bases : List (List α)} {i j : Nat} (mv : Nat)
    (hj : j < bases.length) :
    (applyTransfer bases i j mv).getD j []
      = bases.getD j [] ++ (bases.getD i []).drop ((bases.getD i []).length - mv) := by
  unfold applyTransfer
  rw [List.getD_eq_getElem?_getD, List.getElem?_set_self (by simpa using hj)]
  rfl

lemma getD_applyTransfer_other {bases : List (List α)} {i j k : Nat} (mv : Nat)
    (hki : k ≠ i) (hkj : k ≠ j) :
    (applyTransfer bases i j mv).getD k [] = bases.getD k [] := by
  simp [applyTransfer, List.getD_eq_getElem?_getD, List.getElem?_set_ne hki.symm,
    List.getElem?_set_ne hkj.symm]

lemma sum_set_getD {M : Type} [AddCommMonoid M] :
    ∀ (l : List M) (i : Nat) (x : M), i < l.length →
      (l.set i x).sum + l.getD i 0 = l.sum + x := by
  intro l
  induction l with
  | nil => intro i x h; simp at h
  | cons a t ih =>
    intro i x h
    cases i with
    | zero =>
      simp only [List.set_cons_zero, List.sum_cons, List.getD_cons_zero]
      abel
    | succ n =>
      have hn : n < t.length := by simpa using h
      simp only [List.set_cons_succ, List.sum_cons, List.getD_cons_succ]
      rw [add_assoc, ih n x hn]
      abel

lemma getD_map_coe (l : List (List α)) (k : Nat) :
    (l.map fun b => Multiset.ofList b).getD k 0
      = Multiset.ofList (l.getD k []) := by
  rw [List.getD_eq_getElem?_getD, List.getD_eq_getElem?_getD, List.getElem?_map]
  cases h : l[k]? with
  | none => rfl
  | some b => rfl

lemma objs_set (l : List (List α)) (k : Nat) (x : List α) (hk : k < l.length) :
    objs (l.set k x) + Multiset.ofList (l.getD k []) = objs l + Multiset.ofList x := by
  have hk' : k < (l.map fun b => Multiset.ofList b).length := by
    rw [List.length_map]; exact hk
  have h := sum_set_getD (l.map fun b => Multiset.ofList b) k (Multiset.ofList x) hk'
  rw [getD_map_coe] at h
  unfold objs
  rw [List.map_set]
  exact h

lemma objs_applyTransfer {bases : List (List α)} {i j : Nat} (mv : Nat)
    (hi : i < bases.length) (hj : j < bases.length) (hij : i ≠ j) :
    objs (applyTransfer bases i j mv) = objs bases := by
  set srci := bases.getD i [] with hsrci
  set keep := srci.take (srci.length - mv) with hkeep
  set moved := srci.drop (srci.length - mv) with hmoved
  set tgtj := bases.getD j [] with htgtj
  have hsplit : Multiset.ofList keep + Multiset.ofList moved = Multiset.ofList srci := by
    rw [Multiset.coe_add, hkeep, hmoved, List.take_append_drop]
  have h1 : objs (bases.set i keep) + Multiset.ofList srci
      = objs bases + Multiset.ofList keep := objs_set bases i keep hi
  have hj' : j < (bases.set i keep).length := by simpa using hj
  have hgd : (bases.set i keep).getD j [] = tgtj := by
    simp [htgtj, List.getD_eq_getElem?_getD, List.getElem?_set_ne hij]
  have h2 : objs ((bases.set i keep).set j (tgtj ++ moved)) + Multiset.ofList tgtj
      = objs (bases.set i keep) + (Multiset.ofList tgtj + Multiset.ofList moved) := by
    have h := objs_set (bases.set i keep) j (tgtj ++ moved) hj'
    rw [hgd] at h
    rw [Multiset.coe_add]
    exact h
  have hAT : applyTransfer bases i j mv = (bases.set i keep).set j (tgtj ++ moved) := rfl
  have key : objs (applyTransfer bases i j mv)
        + (Multiset.ofList tgtj + Multiset.ofList srci)
      = objs bases + (Multiset.ofList tgtj + Multiset.ofList srci) := by
    calc objs (applyTransfer bases i j mv) + (Multiset.ofList tgtj + Multiset.ofList srci)
        = (objs ((bases.set i keep).set j (tgtj ++ moved)) + Multiset.ofList tgtj)
            + Multiset.ofList srci := by rw [hAT]; abel
      _ = (objs (bases.set i keep) + (Multiset.ofList tgtj + Multiset.ofList moved))
            + Multiset.ofList srci := by rw [h2]
      _ = (objs (bases.set i keep) + Multiset.ofList srci)
            + (Multiset.ofList tgtj + Multiset.ofList moved) := by abel
      _ = (objs bases + Multiset.ofList keep)
            + (Multiset.ofList tgtj + Multiset.ofList moved) := by rw [h1]
      _ = objs bases + ((Multiset.ofList keep + Multiset.ofList moved)
            + Multiset.ofList tgtj) := by abel
      _ = objs bases + (Multiset.ofList tgtj + Multiset.ofList srci) := by
            rw [hsplit]; abel
  exact add_right_cancel key

/-! ### Membership characterizations of the enumerations -/

lemma mem_scrambleMoves {bases : List (List α)} {h : Nat} {i j c : Nat} :
    (i, j, c) ∈ scrambleMoves bases h ↔
      i < bases.length ∧ j < bases.length ∧ i ≠ j ∧
      bases.getD i [] ≠ [] ∧ 1 ≤ c ∧
      c ≤ min (bases.getD i []).length (h - (bases.getD j []).length) := by
  unfold scrambleMoves
  simp only [List.mem_flatMap, List.mem_range, mem_ite_nil_left, List.mem_map,
    List.isEmpty_iff, Prod.mk.injEq]
  constructor
  · rintro ⟨i', hi', hne, j', hj', hij', hfull, k, hk, rfl, rfl, rfl⟩
    refine ⟨hi', hj', hij', hne, Nat.le_add_left 1 k, ?_⟩
    omega
  · rintro ⟨hi, hj, hij, hne, hc1, hc2⟩
    refine ⟨i, hi, hne, j, hj, hij, ?_, c - 1, ?_, rfl, rfl, ?_⟩ <;> omega

lemma mem_specForwardMoves {bases : List (List α)} {heights : List Nat}
    {i j c : Nat} :
    (i, j, c) ∈ specForwardMoves bases heights ↔
      i < bases.length ∧ j < bases.length ∧ i ≠ j ∧
      bases.getD i [] ≠ [] ∧
      (bases.getD j [] = [] ∨
        (bases.getD j []).getLast? = (bases.getD i []).getLast?) ∧
      1 ≤ c ∧
      c ≤ min (topRun (bases.getD i []))
        (heights.getD j 0 - (bases.getD j []).length) := by
  unfold specForwardMoves
  simp only [List.mem_flatMap, List.mem_range, mem_ite_nil_left, mem_ite_nil_right,
    List.mem_map, List.isEmpty_iff, Prod.mk.injEq]
  constructor
  · rintro ⟨i', hi', hne, j', hj', hij', ⟨hf, hcol⟩, k, hk, rfl, rfl, rfl⟩
    exact ⟨hi', hj', hij', hne, hcol, Nat.le_add_left 1 k, by omega⟩
  · rintro ⟨hi, hj, hij, hne, hcol, hc1, hc2⟩
    refine ⟨i, hi, hne, j, hj, hij, ⟨by omega, hcol⟩, c - 1, by omega, rfl, rfl, by omega⟩

lemma nextStates_eq_map (bases : List (List α)) (heights : List Nat) :
    nextStates bases heights
      = (specForwardMoves bases heights).map
          fun m => applyTransfer bases m.1 m.2.1 m.2.2 := by
  unfold nextStates specForwardMoves
  rw [List.map_flatMap]
  refine List.flatMap_congr ?_
  intro i hi
  by_cases hsrc : bases.getD i [] = []
  · rw [if_pos (List.isEmpty_iff.mpr hsrc), if_pos (List.isEmpty_iff.mpr hsrc),
      List.map_nil]
  · have hsrc' : ¬ ((bases.getD i []).isEmpty = true) := by
      rw [List.isEmpty_iff]
      exact hsrc
    rw [if_neg hsrc', if_neg hsrc', List.map_flatMap]
    refine List.flatMap_congr ?_
    intro j hj
    by_cases hij : i = j
    · rw [if_pos hij, if_pos hij, List.map_nil]
    · rw [if_neg hij, if_neg hij]
      by_cases hfull : (bases.getD j []).length = heights.getD j 0
      · rw [if_pos hfull,
          if_neg (by rw [Nat.sub_eq_zero_of_le (Nat.le_of_eq hfull.symm)]; simp),
          List.map_nil]
      · rw [if_neg hfull]
        by_cases hcol : bases.getD j [] ≠ [] ∧
            (bases.getD j []).getLast? ≠ (bases.getD i []).getLast?
        · refine Eq.trans (if_pos hcol) (Eq.symm ?_)
          rw [if_neg ?hc, List.map_nil]
          case hc =>
            rintro ⟨-, hor⟩
            rcases hor with h1 | h1
            · exact hcol.1 h1
            · exact hcol.2 h1
        · rw [if_neg hcol]
          by_cases hfree : 0 < heights.getD j 0 - (bases.getD j []).length
          · have hc2 : bases.getD j [] = [] ∨
                (bases.getD j []).getLast? = (bases.getD i []).getLast? := by
              by_cases hnil : bases.getD j [] = []
              · exact Or.inl hnil
              · right
                by_contra hne
                exact hcol ⟨hnil, hne⟩
            rw [if_pos ⟨hfree, hc2⟩, List.map_map]
            rfl
          · have hz : heights.getD j 0 - (bases.getD j []).length = 0 := by omega
            have : ¬ (0 < heights.getD j 0 - (bases.getD j []).length ∧
                (bases.getD j [] = [] ∨
                  (bases.getD j []).getLast? = (bases.getD i []).getLast?)) := by
              rintro ⟨h0, -⟩
              omega
            rw [if_neg this, hz, List.map_nil]
            simp

lemma mem_nextStates {bases : List (List α)} {heights : List Nat}
    {b' : List (List α)} :
    b' ∈ nextStates bases heights ↔
      ∃ m ∈ specForwardMoves bases heights,
        b' = applyTransfer bases m.1 m.2.1 m.2.2 := by
  rw [nextStates_eq_map]
  simp only [List.mem_map]
  constructor
  · rintro ⟨m, hm, rfl⟩; exact ⟨m, hm, rfl⟩
  · rintro ⟨m, hm, rfl⟩; exact ⟨m, hm, rfl⟩

/-! ### Runs of equal colours at the top of a base -/

lemma topRun_reverse_cons {l : List α} {c : α} {rest : List α}
    (h : l.reverse = c :: rest) :
    topRun l = 1 + (rest.takeWhile fun o => o == c).length := by
  unfold topRun
  rw [h]

lemma topRun_le_length (l : List α) : topRun l ≤ l.length := by
  cases h : l.reverse with
  | nil =>
    rw [List.reverse_eq_nil_iff.mp h]
    rfl
  | cons c rest =>
    have hlen : l.length = rest.length + 1 := by
      have h2 := congrArg List.length h
      simpa [List.length_reverse] using h2
    have h3 := List.Sublist.length_le
      (List.takeWhile_sublist (l := rest) fun o => o == c)
    rw [topRun_reverse_cons h]
    omega

lemma topRun_pos {l : List α} (h : l ≠ []) : 1 ≤ topRun l := by
  cases hr : l.reverse with
  | nil => exact absurd (List.reverse_eq_nil_iff.mp hr) h
  | cons c rest =>
    rw [topRun_reverse_cons hr]
    omega

lemma takeWhile_append_of_all {p : α → Bool} {a b : List α}
    (h : ∀ x ∈ a, p x = true) : (a ++ b).takeWhile p = a ++ b.takeWhile p := by
  induction a with
  | nil => simp
  | cons y ys ih =>
    have hy : p y = true := h y (by simp)
    simp only [List.cons_append, List.takeWhile_cons, hy, if_true]
    rw [ih fun x hx => h x (by simp [hx])]

lemma getLast?_uniform {l : List α} {c : α} (hne : l ≠ [])
    (hall : ∀ x ∈ l, x = c) : l.getLast? = some c := by
  rw [List.getLast?_eq_getLast l hne]
  exact congrArg some (hall _ (List.getLast_mem hne))

lemma eq_getLast_of_mem_top {l : List α} {r : Nat} (hr : r ≤ topRun l) {x : α}
    (hx : x ∈ l.drop (l.length - r)) : l.getLast? = some x := by
  cases hrev : l.reverse with
  | nil =>
    rw [List.reverse_eq_nil_iff.mp hrev] at hx
    simp at hx
  | cons c rest =>
    have hlast : l.getLast? = some c := by
      rw [← List.head?_reverse, hrev]
      rfl
    have hrl : r ≤ l.length := le_trans hr (topRun_le_length l)
    have hxrev : x ∈ l.reverse.take r := by
      have he : (l.drop (l.length - r)).reverse = l.reverse.take r := by
        rw [List.reverse_drop]
        congr 1
        omega
      rw [← List.mem_reverse, he] at hx
      exact hx
    have hrun : r ≤ 1 + (rest.takeWhile fun o => o == c).length := by
      have ht := topRun_reverse_cons hrev
      omega
    rw [hrev] at hxrev
    cases r with
    | zero => simp at hxrev
    | succ s =>
      rw [List.take_succ_cons] at hxrev
      rcases List.mem_cons.mp hxrev with h1 | h1
      · rw [hlast, h1]
      · have hs : s ≤ (rest.takeWhile fun o => o == c).length := by omega
        have hrest : rest.take s = (rest.takeWhile fun o => o == c).take s := by
          conv_lhs => rw [← List.takeWhile_append_dropWhile (p := fun o => o == c) (l := rest)]
          rw [List.take_append_of_le_length hs]
        rw [hrest] at h1
        have h2 := List.mem_takeWhile_imp (List.mem_of_mem_take h1)
        rw [hlast]
        have : x = c := by simpa using h2
        rw [this]

lemma le_topRun_append {l0 g : List α} {c : α} (hg : g ≠ [])
    (hall : ∀ x ∈ g, x = c) : g.length ≤ topRun (l0 ++ g) := by
  obtain ⟨c0, rest0, hg'⟩ : ∃ c0 rest0, g.reverse = c0 :: rest0 := by
    cases h : g.reverse with
    | nil => exact absurd (List.reverse_eq_nil_iff.mp h) hg
    | cons a b => exact ⟨a, b, rfl⟩
  have hc0 : c0 = c := hall c0 (List.mem_reverse.mp (by rw [hg']; simp))
  have hrest0 : ∀ x ∈ rest0, x = c := fun x hx =>
    hall x (List.mem_reverse.mp (by rw [hg']; simp [hx]))
  have hrev : (l0 ++ g).reverse = c0 :: (rest0 ++ l0.reverse) := by
    rw [List.reverse_append, hg']
    rfl
  have hlen : g.length = rest0.length + 1 := by
    have h2 := congrArg List.length hg'
    simpa [List.length_reverse] using h2
  have ht := topRun_reverse_cons hrev
  rw [ht, takeWhile_append_of_all (fun x hx => by
    simp only [beq_iff_eq]
    rw [hrest0 x hx, hc0])]
  simp only [List.length_append]
  omega

lemma getLast?_append_right {l0 g : List α} (hg : g ≠ []) :
    (l0 ++ g).getLast? = g.getLast? := by
  rw [List.getLast?_append]
  cases h : g.getLast? with
  | none => exact absurd (List.getLast?_eq_none_iff.mp h) hg
  | some y => rfl

/-! ### The solved predicate, base by base -/

lemma solvedBase_iff {b : List α} {h : Nat} :
    solvedBase b h = true ↔
      b = [] ∨ (b.length = h ∧ ∀ x ∈ b, ∀ y ∈ b, x = y) := by
  cases b with
  | nil => simp [solvedBase]
  | cons c rest =>
    simp only [solvedBase, Bool.and_eq_true, beq_iff_eq, List.all_eq_true,
      beq_iff_eq]
    constructor
    · rintro ⟨h1, h2⟩
      refine Or.inr ⟨h1, ?_⟩
      intro x hx y hy
      rw [h2 x hx, h2 y hy]
    · rintro (h1 | ⟨h1, h2⟩)
      · exact absurd h1 (by simp)
      · exact ⟨h1, fun x hx => h2 x hx c (by simp)⟩

lemma solved_base_spec {bases : List (List α)} {heights : List Nat}
    (hs : solvedState bases heights = true)
    (hlen : bases.length = heights.length) {k : Nat} (hk : k < bases.length)
    (hne : bases.getD k [] ≠ []) :
    (bases.getD k []).length = heights.getD k 0 ∧
    ∀ x ∈ bases.getD k [], ∀ y ∈ bases.getD k [], x = y := by
  have hkz : k < (bases.zip heights).length := by
    rw [List.length_zip]
    omega
  have hkh : k < heights.length := by omega
  unfold solvedState at hs
  rw [List.all_eq_true] at hs
  have hp := hs ((bases.zip heights)[k]) (List.getElem_mem hkz)
  rw [List.getElem_zip] at hp
  have hgb : bases.getD k [] = bases[k] := List.getD_eq_getElem bases [] hk
  have hgh : heights.getD k 0 = heights[k] := List.getD_eq_getElem heights 0 hkh
  rw [hgb, hgh]
  rw [hgb] at hne
  rcases solvedBase_iff.mp hp with h1 | h1
  · exact absurd h1 hne
  · exact h1

lemma solved_base_getLast {bases : List (List α)} {heights : List Nat}
    (hs : solvedState bases heights = true)
    (hlen : bases.length = heights.length) {k : Nat} (hk : k < bases.length)
    (hne : bases.getD k [] ≠ []) :
    ∀ x ∈ bases.getD k [], (bases.getD k []).getLast? = some x := by
  intro x hx
  obtain ⟨-, hu⟩ := solved_base_spec hs hlen hk hne
  rw [List.getLast?_eq_getLast _ hne]
  exact congrArg some (hu _ (List.getLast_mem hne) x hx)

/-! ### Membership in the back-propagation candidate list -/

lemma candidate_eq_applyTransfer {bases : List (List α)} {tgt src r : Nat}
    (hst : src ≠ tgt) :
    (bases.set src
        (bases.getD src []
          ++ (bases.getD tgt []).drop ((bases.getD tgt []).length - r))).set tgt
      ((bases.getD tgt []).take ((bases.getD tgt []).length - r))
      = applyTransfer bases tgt src r := by
  unfold applyTransfer
  exact (List.set_comm _ _ bases fun h => hst h.symm).symm

lemma mem_backPropagateList {bases : List (List α)} {heights : List Nat}
    {U : List (List α)} :
    U ∈ backPropagateList bases heights ↔
      ∃ tgt r src,
        tgt < bases.length ∧ bases.getD tgt [] ≠ [] ∧
        1 ≤ r ∧ r ≤ topRun (bases.getD tgt []) ∧
        src < bases.length ∧ src ≠ tgt ∧
        (bases.getD src []).length + r ≤ heights.getD src 0 ∧
        ((bases.getD tgt []).take ((bases.getD tgt []).length - r) = [] ∨
          ((bases.getD tgt []).take ((bases.getD tgt []).length - r)).getLast?
            = (bases.getD tgt []).getLast?) ∧
        solvedState (applyTransfer bases tgt src r) heights = false ∧
        U = applyTransfer bases tgt src r := by
  unfold backPropagateList
  simp only [List.mem_flatMap, List.mem_range, mem_ite_nil_left,
    List.mem_filterMap, List.isEmpty_iff]
  constructor
  · rintro ⟨tgt, htgt, hne, r0, hr0, src, hsrc, hf⟩
    split_ifs at hf with h1 h2 h3 h4
    rw [Option.some_inj] at hf
    push_neg at h3
    refine ⟨tgt, r0 + 1, src, htgt, hne, Nat.le_add_left 1 r0, by omega,
      hsrc, h1, by omega, ?_, ?_, ?_⟩
    · by_cases hnil :
          (bases.getD tgt []).take ((bases.getD tgt []).length - (r0 + 1)) = []
      · exact Or.inl hnil
      · exact Or.inr (h3 hnil)
    · rw [← candidate_eq_applyTransfer h1]
      simpa using h4
    · rw [← candidate_eq_applyTransfer h1]
      exact hf.symm
  · rintro ⟨tgt, r, src, htgt, hne, hr1, hrun, hsrc, hst, hcap, hcol, hunsolved, hU⟩
    refine ⟨tgt, htgt, hne, r - 1, by omega, src, hsrc, ?_⟩
    have hr : r - 1 + 1 = r := by omega
    rw [hr]
    rw [if_neg hst, if_neg (by omega)]
    have hcol' : ¬ ((bases.getD tgt []).take ((bases.getD tgt []).length - r) ≠ [] ∧
        ((bases.getD tgt []).take ((bases.getD tgt []).length - r)).getLast?
          ≠ (bases.getD tgt []).getLast?) := by
      rcases hcol with h | h
      · intro hc
        exact hc.1 h
      · intro hc
        exact hc.2 h
    rw [if_neg hcol']
    rw [candidate_eq_applyTransfer hst]
    rw [if_neg (by rw [hunsolved]; simp)]
    rw [hU]

/-! ### Capacity preservation -/

lemma withinCaps_of_solved {bases : List (List α)} {heights : List Nat}
    (hs : solvedState bases heights = true)
    (hlen : bases.length = heights.length) : withinCaps bases heights := by
  intro k hk
  by_cases hne : bases.getD k [] = []
  · rw [hne]
    exact Nat.zero_le _
  · rw [(solved_base_spec hs hlen hk hne).1]

lemma withinCaps_applyTransfer {bases : List (List α)} {heights : List Nat}
    {i j c : Nat} (hi : i < bases.length) (hj : j < bases.length) (hij : i ≠ j)
    (hcap : withinCaps bases heights)
    (hjc : (bases.getD j []).length + c ≤ heights.getD j 0) :
    withinCaps (applyTransfer bases i j c) heights := by
  intro k hk
  rw [length_applyTransfer] at hk
  by_cases hki : k = i
  · subst hki
    rw [getD_applyTransfer_src c hij hk]
    have h1 := hcap k hk
    have h2 := List.length_take ((bases.getD k []).length - c) (bases.getD k [])
    omega
  · by_cases hkj : k = j
    · subst hkj
      rw [getD_applyTransfer_tgt c hk]
      have h2 := List.length_drop ((bases.getD i []).length - c) (bases.getD i [])
      rw [List.length_append]
      omega
    · rw [getD_applyTransfer_other c hki hkj]
      exact hcap k hk

/-- C6: `_next_states` returns exactly the boards obtained by applying each
legal forward move, in the stable enumeration order of the specification:
source index ascending, then destination index ascending, then transfer
count ascending (`specForwardMoves` is written from the specification's
wording). -/
theorem claim_C6_next_states_enumeration (bases : List (List α))
    (heights : List Nat) :
    nextStates bases heights
      = (specForwardMoves bases heights).map
          fun m => applyTransfer bases m.1 m.2.1 m.2.2 :=
  nextStates_eq_map bases heights

/-- C7: one scramble step, one `_next_states` successor, and every
`back_propagate` candidate all preserve the multiset of objects on the
board, and keep every base within its capacity (the scramble clause is
stated with its uniform `base_height`; the `back_propagate` clause needs
no capacity hypothesis because its input is solved). -/
theorem claim_C7_conservation :
    (∀ (bases : List (List α)) (h : Nat) (m : Nat × Nat × Nat),
        m ∈ scrambleMoves bases h →
        objs (applyTransfer bases m.1 m.2.1 m.2.2) = objs bases ∧
        ((∀ k, k < bases.length → (bases.getD k []).length ≤ h) →
          ∀ k, k < bases.length →
            ((applyTransfer bases m.1 m.2.1 m.2.2).getD k []).length ≤ h)) ∧
    (∀ (bases : List (List α)) (heights : List Nat) (b' : List (List α)),
        b' ∈ nextStates bases heights →
        objs b' = objs bases ∧
        (withinCaps bases heights → withinCaps b' heights)) ∧
    (∀ (bases : List (List α)) (heights : List Nat) (L : List (List (List α)))
        (b' : List (List α)),
        bases.length = heights.length →
        back_propagate bases heights = Except.ok L → b' ∈ L →
        objs b' = objs bases ∧ withinCaps b' heights) := by
  refine ⟨?_, ?_, ?_⟩
  · rintro bases h ⟨i, j, c⟩ hm
    obtain ⟨hi, hj, hij, hne, hc1, hc2⟩ := mem_scrambleMoves.mp hm
    dsimp only
    have hcs : c ≤ (bases.getD i []).length := le_trans hc2 (min_le_left _ _)
    have hcf : c ≤ h - (bases.getD j []).length := le_trans hc2 (min_le_right _ _)
    refine ⟨objs_applyTransfer c hi hj hij, ?_⟩
    intro hcap k hk
    by_cases hki : k = i
    · subst hki
      rw [getD_applyTransfer_src c hij hk]
      have h1 := hcap k hk
      have h2 := List.length_take ((bases.getD k []).length - c) (bases.getD k [])
      omega
    · by_cases hkj : k = j
      · subst hkj
        rw [getD_applyTransfer_tgt c hk]
        have h2 := List.length_drop ((bases.getD i []).length - c) (bases.getD i [])
        rw [List.length_append]
        omega
      · rw [getD_applyTransfer_other c hki hkj]
        exact hcap k hk
  · rintro bases heights b' hb'
    obtain ⟨⟨i, j, c⟩, hm, rfl⟩ := mem_nextStates.mp hb'
    obtain ⟨hi, hj, hij, hne, hcol, hc1, hc2⟩ := mem_specForwardMoves.mp hm
    dsimp only
    have hcf : c ≤ heights.getD j 0 - (bases.getD j []).length :=
      le_trans hc2 (min_le_right _ _)
    refine ⟨objs_applyTransfer c hi hj hij, ?_⟩
    intro hcap
    refine withinCaps_applyTransfer hi hj hij hcap (by omega)
  · rintro bases heights L b' hlen hok hb'
    unfold back_propagate at hok
    split_ifs at hok with hsf
    have hs : solvedState bases heights = true := by
      cases h : solvedState bases heights with
      | false => exact absurd h hsf
      | true => rfl
    rw [Except.ok.injEq] at hok
    rw [← hok] at hb'
    obtain ⟨tgt, r, src, htgt, hne, hr1, hrun, hsrc, hst, hcap, hcol, hunsolved,
      rfl⟩ := mem_backPropagateList.mp hb'
    refine ⟨objs_applyTransfer r htgt hsrc (fun h => hst h.symm), ?_⟩
    refine withinCaps_applyTransfer htgt hsrc (fun h => hst h.symm)
      (withinCaps_of_solved hs hlen) hcap

/-! ### Reversing a transfer -/

lemma eq_of_getD_eq {β : Type} {l1 l2 : List β} (d : β)
    (hlen : l1.length = l2.length)
    (h : ∀ k, k < l1.length → l1.getD k d = l2.getD k d) : l1 = l2 := by
  induction l1 generalizing l2 with
  | nil =>
    cases l2 with
    | nil => rfl
    | cons b t => simp at hlen
  | cons a t ih =>
    cases l2 with
    | nil => simp at hlen
    | cons b t2 =>
      have h0 := h 0 (by simp)
      simp only [List.getD_cons_zero] at h0
      rw [h0]
      have ht : t = t2 := by
        refine ih (by simpa using hlen) ?_
        intro k hk
        have := h (k + 1) (by simpa using Nat.succ_lt_succ hk)
        simpa using this
      rw [ht]

lemma applyTransfer_inverse {bases : List (List α)} {i j r : Nat}
    (hij : i ≠ j) (hi : i < bases.length) (hj : j < bases.length)
    (hr : r ≤ (bases.getD i []).length) :
    applyTransfer (applyTransfer bases i j r) j i r = bases := by
  have hAlen : (applyTransfer bases i j r).length = bases.length :=
    length_applyTransfer bases i j r
  have hi' : i < (applyTransfer bases i j r).length := by omega
  have hj' : j < (applyTransfer bases i j r).length := by omega
  have hAj : (applyTransfer bases i j r).getD j []
      = bases.getD j [] ++ (bases.getD i []).drop ((bases.getD i []).length - r) :=
    getD_applyTransfer_tgt r hj
  have hAi : (applyTransfer bases i j r).getD i []
      = (bases.getD i []).take ((bases.getD i []).length - r) :=
    getD_applyTransfer_src r hij hi
  have hmlen : ((bases.getD i []).drop ((bases.getD i []).length - r)).length = r := by
    rw [List.length_drop]
    omega
  have hAjlen : ((applyTransfer bases i j r).getD j []).length
      = (bases.getD j []).length + r := by
    rw [hAj, List.length_append, hmlen]
  refine eq_of_getD_eq [] (by rw [length_applyTransfer, hAlen]) ?_
  intro k hk
  rw [length_applyTransfer, hAlen] at hk
  by_cases hkj : k = j
  · subst hkj
    rw [getD_applyTransfer_src r (fun h => hij h.symm) hj']
    rw [hAj, List.length_append, hmlen]
    have he : (bases.getD k []).length + r - r = (bases.getD k []).length := by omega
    rw [he, List.take_left]
  · by_cases hki : k = i
    · subst hki
      rw [getD_applyTransfer_tgt r hi']
      rw [hAi, hAj, List.length_append, hmlen]
      have he : (bases.getD j []).length + r - r = (bases.getD j []).length := by omega
      rw [he, List.drop_left, List.take_append_drop]
    · rw [getD_applyTransfer_other r hkj hki,
        getD_applyTransfer_other r hki hkj]

/-! ### Soundness of back-propagation: every candidate is a predecessor
by exactly one legal forward move -/

lemma backPropagate_move_spec {bases : List (List α)} {heights : List Nat}
    {tgt r src : Nat} (hlen : bases.length = heights.length)
    (hs : solvedState bases heights = true) (htgt : tgt < bases.length)
    (hne : bases.getD tgt [] ≠ []) (hr1 : 1 ≤ r)
    (hrun : r ≤ topRun (bases.getD tgt [])) (hsrc : src < bases.length)
    (hst : src ≠ tgt)
    (hcap : (bases.getD src []).length + r ≤ heights.getD src 0) :
    (src, tgt, r) ∈ specForwardMoves (applyTransfer bases tgt src r) heights ∧
    applyTransfer (applyTransfer bases tgt src r) src tgt r = bases := by
  have hts : tgt ≠ src := fun h => hst h.symm
  have hrlen : r ≤ (bases.getD tgt []).length :=
    le_trans hrun (topRun_le_length _)
  have hinv : applyTransfer (applyTransfer bases tgt src r) src tgt r = bases :=
    applyTransfer_inverse hts htgt hsrc hrlen
  refine ⟨?_, hinv⟩
  have hUlen : (applyTransfer bases tgt src r).length = bases.length :=
    length_applyTransfer bases tgt src r
  have hUsrc : (applyTransfer bases tgt src r).getD src []
      = bases.getD src []
        ++ (bases.getD tgt []).drop ((bases.getD tgt []).length - r) :=
    getD_applyTransfer_tgt r hsrc
  have hUtgt : (applyTransfer bases tgt src r).getD tgt []
      = (bases.getD tgt []).take ((bases.getD tgt []).length - r) :=
    getD_applyTransfer_src r hts htgt
  have hmlen : ((bases.getD tgt []).drop ((bases.getD tgt []).length - r)).length
      = r := by
    rw [List.length_drop]
    omega
  have hmne : (bases.getD tgt []).drop ((bases.getD tgt []).length - r) ≠ [] := by
    intro h
    rw [h] at hmlen
    simp at hmlen
    omega
  obtain ⟨c0, hc0⟩ : ∃ c0, (bases.getD tgt []).getLast? = some c0 := by
    cases h : (bases.getD tgt []).getLast? with
    | none => exact absurd (List.getLast?_eq_none_iff.mp h) hne
    | some y => exact ⟨y, rfl⟩
  have hmuni : ∀ x ∈ (bases.getD tgt []).drop ((bases.getD tgt []).length - r),
      x = c0 := by
    intro x hx
    have := eq_getLast_of_mem_top hrun hx
    rw [hc0] at this
    exact (Option.some_inj.mp this).symm
  have hsb := solved_base_spec hs hlen htgt hne
  have hkeepuni : ∀ x ∈ (bases.getD tgt []).take ((bases.getD tgt []).length - r),
      x = c0 := by
    intro x hx
    have hx' := List.mem_of_mem_take hx
    have hlast := List.getLast_mem hne
    have := hsb.2 x hx' _ hlast
    rw [List.getLast?_eq_getLast _ hne] at hc0
    rw [this, Option.some_inj.mp hc0]
  have hsrclast : ((applyTransfer bases tgt src r).getD src []).getLast?
      = some c0 := by
    rw [hUsrc, getLast?_append_right hmne]
    exact getLast?_uniform hmne hmuni
  rw [mem_specForwardMoves]
  refine ⟨by omega, by omega, hst, ?_, ?_, hr1, ?_⟩
  · rw [hUsrc]
    intro h
    exact hmne (List.append_eq_nil.mp h).2
  · rw [hUtgt]
    by_cases hknil :
        (bases.getD tgt []).take ((bases.getD tgt []).length - r) = []
    · exact Or.inl hknil
    · refine Or.inr ?_
      rw [getLast?_uniform hknil hkeepuni, hsrclast]
  · refine le_min ?_ ?_
    · rw [hUsrc]
      have := @le_topRun_append _ _ (bases.getD src []) _ _ hmne hmuni
      omega
    · rw [hUtgt]
      rw [List.length_take]
      have hfull : (bases.getD tgt []).length = heights.getD tgt 0 := hsb.1
      omega

lemma backPropagate_move_unique {bases : List (List α)} {heights : List Nat}
    {tgt r src : Nat} (htgt : tgt < bases.length) (hne : bases.getD tgt [] ≠ [])
    (hr1 : 1 ≤ r) (hrun : r ≤ topRun (bases.getD tgt []))
    (hsrc : src < bases.length) (hst : src ≠ tgt)
    {i j c : Nat}
    (hm : (i, j, c) ∈ specForwardMoves (applyTransfer bases tgt src r) heights)
    (happly : applyTransfer (applyTransfer bases tgt src r) i j c = bases) :
    i = src ∧ j = tgt ∧ c = r := by
  have hts : tgt ≠ src := fun h => hst h.symm
  have hrlen : r ≤ (bases.getD tgt []).length :=
    le_trans hrun (topRun_le_length _)
  have hUlen : (applyTransfer bases tgt src r).length = bases.length :=
    length_applyTransfer bases tgt src r
  obtain ⟨hi, hj, hij, hine, hcol, hc1, hc2⟩ := mem_specForwardMoves.mp hm
  rw [hUlen] at hi hj
  have hctr : c ≤ topRun ((applyTransfer bases tgt src r).getD i []) :=
    le_trans hc2 (min_le_left _ _)
  have hclen : c ≤ ((applyTransfer bases tgt src r).getD i []).length :=
    le_trans hctr (topRun_le_length _)
  -- lengths of the candidate board
  have hLsrc : ((applyTransfer bases tgt src r).getD src []).length
      = (bases.getD src []).length + r := by
    rw [getD_applyTransfer_tgt r hsrc, List.length_append, List.length_drop]
    omega
  have hLtgt : ((applyTransfer bases tgt src r).getD tgt []).length + r
      = (bases.getD tgt []).length := by
    rw [getD_applyTransfer_src r hts htgt, List.length_take]
    omega
  have hLother : ∀ k, k ≠ src → k ≠ tgt →
      ((applyTransfer bases tgt src r).getD k []).length
        = (bases.getD k []).length := by
    intro k hks hkt
    rw [getD_applyTransfer_other r hkt hks]
  -- lengths after applying the forward move
  have hi' : i < (applyTransfer bases tgt src r).length := by omega
  have hj' : j < (applyTransfer bases tgt src r).length := by omega
  have hMi : (bases.getD i []).length + c
      = ((applyTransfer bases tgt src r).getD i []).length := by
    have h := getD_applyTransfer_src c hij hi'
    rw [happly] at h
    rw [h, List.length_take]
    omega
  have hMj : (bases.getD j []).length
      = ((applyTransfer bases tgt src r).getD j []).length + c := by
    have h := @getD_applyTransfer_tgt _ _ (applyTransfer bases tgt src r)
      i j c hj'
    rw [happly] at h
    rw [h, List.length_append, List.length_drop]
    omega
  have hieq : i = src := by
    by_contra hisrc
    by_cases hitgt : i = tgt
    · subst hitgt
      omega
    · have := hLother i hisrc hitgt
      omega
  subst hieq
  have hjeq : j = tgt := by
    by_contra hjtgt
    by_cases hjsrc : j = i
    · exact hij hjsrc.symm
    · have := hLother j hjsrc hjtgt
      omega
  subst hjeq
  exact ⟨rfl, rfl, by omega⟩

lemma backPropagate_sound {bases : List (List α)} {heights : List Nat}
    {U : List (List α)} (hlen : bases.length = heights.length)
    (hs : solvedState bases heights = true)
    (hU : U ∈ backPropagateList bases heights) :
    solvedState U heights = false ∧
    ∃! m : Nat × Nat × Nat,
      m ∈ specForwardMoves U heights ∧
      applyTransfer U m.1 m.2.1 m.2.2 = bases := by
  obtain ⟨tgt, r, src, htgt, hne, hr1, hrun, hsrc, hst, hcap, hcol, hunsolved,
    rfl⟩ := mem_backPropagateList.mp hU
  obtain ⟨hmem, hinv⟩ :=
    backPropagate_move_spec hlen hs htgt hne hr1 hrun hsrc hst hcap
  refine ⟨hunsolved, ⟨(src, tgt, r), ⟨hmem, hinv⟩, ?_⟩⟩
  rintro ⟨i, j, c⟩ ⟨hm, happly⟩
  obtain ⟨h1, h2, h3⟩ :=
    backPropagate_move_unique htgt hne hr1 hrun hsrc hst hm happly
  simp [h1, h2, h3]

/-- C3: every board `U` returned by `back_propagate` on a solved board `S`
is itself unsolved, and there is exactly one legal forward move `m`
(a source-destination-count triple) with `applyMove(U, m) = S`. -/
theorem claim_C3_reversibility (bases : List (List α)) (heights : List Nat)
    (L : List (List (List α))) (U : List (List α))
    (hlen : bases.length = heights.length)
    (hok : back_propagate bases heights = Except.ok L) (hU : U ∈ L) :
    solvedState U heights = false ∧
    ∃! m : Nat × Nat × Nat,
      m ∈ specForwardMoves U heights ∧
      applyTransfer U m.1 m.2.1 m.2.2 = bases := by
  unfold back_propagate at hok
  split_ifs at hok with hsf
  have hs : solvedState bases heights = true := by
    cases h : solvedState bases heights with
    | false => exact absurd h hsf
    | true => rfl
  rw [Except.ok.injEq] at hok
  rw [← hok] at hU
  exact backPropagate_sound hlen hs hU

/-- Witness for C3 at the solved board `[[a,a],[]]` with heights `[2,2]`
and its back-propagation candidate `[[a],[a]]`. -/
theorem claim_C3_reversibility_witness :
    solvedState [["a"],["a"]] [2,2] = false ∧
    ∃! m : Nat × Nat × Nat,
      m ∈ specForwardMoves [["a"],["a"]] [2,2] ∧
      applyTransfer [["a"],["a"]] m.1 m.2.1 m.2.2
        = [["a","a"],([] : List String)] :=
  claim_C3_reversibility [["a","a"],([] : List String)] [2,2] [[["a"],["a"]]]
    [["a"],["a"]] (by decide) (by rfl) (by decide)

/-! ### Completeness of back-propagation for capacity-respecting,
unsolved predecessors -/

lemma backPropagate_complete {bases heights : List _} {U : List (List α)}
    {i j c : Nat} (hlen : bases.length = heights.length)
    (hs : solvedState bases heights = true) (hcap : withinCaps U heights)
    (hm : (i, j, c) ∈ specForwardMoves U heights)
    (happly : applyTransfer U i j c = bases)
    (hUnsolved : solvedState U heights = false) :
    U ∈ backPropagateList bases heights := by
  obtain ⟨hi, hj, hij, hine, hcol, hc1, hc2⟩ := mem_specForwardMoves.mp hm
  have hctr : c ≤ topRun (U.getD i []) := le_trans hc2 (min_le_left _ _)
  have hclen : c ≤ (U.getD i []).length := le_trans hctr (topRun_le_length _)
  have hcfree : c ≤ heights.getD j 0 - (U.getD j []).length :=
    le_trans hc2 (min_le_right _ _)
  have hUblen : U.length = bases.length := by
    rw [← happly, length_applyTransfer]
  have hmlen : ((U.getD i []).drop ((U.getD i []).length - c)).length = c := by
    rw [List.length_drop]
    omega
  have hmne : (U.getD i []).drop ((U.getD i []).length - c) ≠ [] := by
    intro h
    rw [h] at hmlen
    simp at hmlen
    omega
  obtain ⟨c0, hc0⟩ : ∃ c0, (U.getD i []).getLast? = some c0 := by
    cases h : (U.getD i []).getLast? with
    | none => exact absurd (List.getLast?_eq_none_iff.mp h) hine
    | some y => exact ⟨y, rfl⟩
  have hmuni : ∀ x ∈ (U.getD i []).drop ((U.getD i []).length - c), x = c0 := by
    intro x hx
    have h := eq_getLast_of_mem_top hctr hx
    rw [hc0] at h
    exact (Option.some_inj.mp h).symm
  have hbj : bases.getD j []
      = U.getD j [] ++ (U.getD i []).drop ((U.getD i []).length - c) := by
    have h := @getD_applyTransfer_tgt _ _ U i j c (by omega)
    rw [happly] at h
    exact h
  have hbi : bases.getD i [] = (U.getD i []).take ((U.getD i []).length - c) := by
    have h := @getD_applyTransfer_src _ _ U i j c hij (by omega)
    rw [happly] at h
    exact h
  have hbjlen : (bases.getD j []).length = (U.getD j []).length + c := by
    rw [hbj, List.length_append, hmlen]
  have hbilen : (bases.getD i []).length + c = (U.getD i []).length := by
    rw [hbi, List.length_take]
    omega
  have hinv : applyTransfer bases j i c = U := by
    rw [← happly]
    exact applyTransfer_inverse hij (by omega) (by omega) hclen
  rw [mem_backPropagateList]
  refine ⟨j, c, i, by omega, ?_, hc1, ?_, by omega, hij, ?_, ?_, ?_, ?_⟩
  · rw [hbj]
    intro h
    exact hmne (List.append_eq_nil.mp h).2
  · rw [hbj]
    have h := @le_topRun_append _ _ (U.getD j []) _ _ hmne hmuni
    omega
  · rw [hbilen]
    exact hcap i hi
  · have htake : (bases.getD j []).take ((bases.getD j []).length - c)
        = U.getD j [] := by
      rw [hbj, List.length_append, hmlen]
      have he : (U.getD j []).length + c - c = (U.getD j []).length := by omega
      rw [he, List.take_left]
    rw [htake]
    rcases hcol with h | h
    · exact Or.inl h
    · refine Or.inr ?_
      rw [hbj, getLast?_append_right hmne, h, hc0]
      exact (getLast?_uniform hmne hmuni).symm
  · rw [hinv]
    exact hUnsolved
  · rw [hinv]

/-- C4, amended: `back_propagate` on a solved board `S` returns exactly the
capacity-respecting one-step predecessors of `S` that are not themselves
solved: a board `U` within capacities is in the result if and only if `U`
is unsolved and some legal forward move applied to `U` yields `S` (the
original claim fails because solved predecessors are excluded). -/
theorem claim_C4_amended (bases : List (List α)) (heights : List Nat)
    (L : List (List (List α))) (U : List (List α))
    (hlen : bases.length = heights.length)
    (hok : back_propagate bases heights = Except.ok L)
    (hcap : withinCaps U heights) :
    U ∈ L ↔
      solvedState U heights = false ∧
      ∃ m ∈ specForwardMoves U heights,
        applyTransfer U m.1 m.2.1 m.2.2 = bases := by
  unfold back_propagate at hok
  split_ifs at hok with hsf
  have hs : solvedState bases heights = true := by
    cases h : solvedState bases heights with
    | false => exact absurd h hsf
    | true => rfl
  rw [Except.ok.injEq] at hok
  rw [← hok]
  constructor
  · intro hU
    obtain ⟨hUnsolved, ⟨m, ⟨hm, happly⟩, -⟩⟩ := backPropagate_sound hlen hs hU
    exact ⟨hUnsolved, m, hm, happly⟩
  · rintro ⟨hUnsolved, ⟨i, j, c⟩, hm, happly⟩
    exact backPropagate_complete hlen hs hcap hm happly hUnsolved

/-- Witness for the amended C4 at `S = [[a,a],[]]`, `heights = [2,2]`,
`U = [[a],[a]]`. -/
theorem claim_C4_amended_witness :
    [["a"],["a"]] ∈ [[["a"],["a"]]] ↔
      solvedState [["a"],["a"]] [2,2] = false ∧
      ∃ m ∈ specForwardMoves [["a"],["a"]] [2,2],
        applyTransfer [["a"],["a"]] m.1 m.2.1 m.2.2
          = [["a","a"],([] : List String)] :=
  claim_C4_amended [["a","a"],([] : List String)] [2,2] [[["a"],["a"]]]
    [["a"],["a"]] (by decide) (by rfl)
    (by
      intro k hk
      have h2 : k < 2 := by simpa using hk
      interval_cases k <;> decide)

/-- Witness for C7: a scramble move, a forward successor, and a
back-propagation candidate on small concrete boards all preserve the
object multiset. -/
theorem claim_C7_conservation_witness :
    objs (applyTransfer [["a","a"],([] : List String)] 0 1 1)
        = objs [["a","a"],([] : List String)] ∧
    objs [["a"],["a"]] = objs [["a","a"],([] : List String)] ∧
    objs [["a"],["a"]] = objs [["a","a"],([] : List String)] :=
  ⟨(claim_C7_conservation.1 [["a","a"],[]] 2 (0,1,1) (by decide)).1,
    (claim_C7_conservation.2.1 [["a","a"],[]] [2,2] [["a"],["a"]] (by decide)).1,
    (claim_C7_conservation.2.2 [["a","a"],[]] [2,2] [[["a"],["a"]]]
      [["a"],["a"]] (by decide) (by rfl) (by decide)).1⟩

/-! ### Encoding boards into numbers: the state space is finite -/

lemma encodeList_lt {K : Nat} {d : α → Nat} (l : List α)
    (h : ∀ a ∈ l, d a + 1 < K) : encodeList K d l < K ^ l.length := by
  induction l with
  | nil => simp [encodeList]
  | cons a t ih =>
    have hd : d a + 1 < K := h a (by simp)
    have he := ih fun x hx => h x (by simp [hx])
    have hpow : K ^ (a :: t).length = K * K ^ t.length := by
      rw [List.length_cons, pow_succ, Nat.mul_comm]
    have hmul : K * (encodeList K d t + 1) ≤ K * K ^ t.length :=
      Nat.mul_le_mul_left K he
    rw [Nat.mul_add, Nat.mul_one] at hmul
    show (d a + 1) + K * encodeList K d t < K ^ (a :: t).length
    rw [hpow]
    omega

lemma encodeList_inj {K : Nat} {d : α → Nat} {P : α → Prop}
    (hinj : ∀ a, P a → ∀ b, P b → d a = d b → a = b) :
    ∀ {l1 l2 : List α}, (∀ a ∈ l1, P a ∧ d a + 1 < K) →
      (∀ a ∈ l2, P a ∧ d a + 1 < K) →
      encodeList K d l1 = encodeList K d l2 → l1 = l2 := by
  intro l1
  induction l1 with
  | nil =>
    intro l2 h1 h2 he
    cases l2 with
    | nil => rfl
    | cons b t =>
      exfalso
      have hd := (h2 b (by simp)).2
      have he' : 0 = (d b + 1) + K * encodeList K d t := he
      omega
  | cons a t ih =>
    intro l2 h1 h2 he
    cases l2 with
    | nil =>
      exfalso
      have hd := (h1 a (by simp)).2
      have he' : (d a + 1) + K * encodeList K d t = 0 := he
      omega
    | cons b t2 =>
      have hda := (h1 a (by simp)).2
      have hdb := (h2 b (by simp)).2
      have he' : (d a + 1) + K * encodeList K d t
          = (d b + 1) + K * encodeList K d t2 := he
      have hmod := congrArg (fun n => n % K) he'
      simp only [Nat.add_mul_mod_self_left] at hmod
      rw [Nat.mod_eq_of_lt hda, Nat.mod_eq_of_lt hdb] at hmod
      have hab : a = b :=
        hinj a (h1 a (by simp)).1 b (h2 b (by simp)).1 (by omega)
      have hK : 0 < K := by omega
      have htt : encodeList K d t = encodeList K d t2 := by
        have hKe : K * encodeList K d t = K * encodeList K d t2 := by omega
        exact Nat.eq_of_mul_eq_mul_left hK hKe
      rw [hab, ih (fun x hx => h1 x (by simp [hx]))
        (fun x hx => h2 x (by simp [hx])) htt]

lemma encodeBoard_lt {K : Nat} {d : α → Nat} (hK : 1 ≤ K) :
    ∀ (Hs : List Nat) (bs : List (List α)),
      (∀ k, k < bs.length →
        (bs.getD k []).length ≤ Hs.getD k 0 ∧
        ∀ a ∈ bs.getD k [], d a + 1 < K) →
      encodeBoard K d Hs bs < K ^ Hs.sum := by
  intro Hs
  induction Hs with
  | nil =>
    intro bs hb
    cases bs with
    | nil => simp [encodeBoard]
    | cons b t => simp [encodeBoard]
  | cons H Hs ih =>
    intro bs hb
    cases bs with
    | nil =>
      simp only [encodeBoard]
      exact Nat.pos_pow_of_pos _ (by omega)
    | cons b t =>
      have hb0 := hb 0 (by simp)
      simp only [List.getD_cons_zero] at hb0
      have hbl : encodeList K d b < K ^ H := by
        have h1 := encodeList_lt b hb0.2
        have h2 : K ^ b.length ≤ K ^ H := Nat.pow_le_pow_right hK hb0.1
        omega
      have hbt : encodeBoard K d Hs t < K ^ Hs.sum := by
        refine ih t ?_
        intro k hk
        have := hb (k + 1) (by simpa using Nat.succ_lt_succ hk)
        simpa using this
      show encodeList K d b + K ^ H * encodeBoard K d Hs t
          < K ^ (H :: Hs).sum
      have hpow : K ^ (H :: Hs).sum = K ^ H * K ^ Hs.sum := by
        rw [List.sum_cons, pow_add]
      rw [hpow]
      have hmul : K ^ H * (encodeBoard K d Hs t + 1) ≤ K ^ H * K ^ Hs.sum :=
        Nat.mul_le_mul_left _ hbt
      rw [Nat.mul_add, Nat.mul_one] at hmul
      omega

lemma encodeBoard_inj {K : Nat} {d : α → Nat} {P : α → Prop}
    (hinj : ∀ a, P a → ∀ b, P b → d a = d b → a = b) (hK : 1 ≤ K) :
    ∀ (Hs : List Nat) (bs1 bs2 : List (List α)),
      bs1.length = Hs.length → bs2.length = Hs.length →
      (∀ k, k < bs1.length →
        (bs1.getD k []).length ≤ Hs.getD k 0 ∧
        ∀ a ∈ bs1.getD k [], P a ∧ d a + 1 < K) →
      (∀ k, k < bs2.length →
        (bs2.getD k []).length ≤ Hs.getD k 0 ∧
        ∀ a ∈ bs2.getD k [], P a ∧ d a + 1 < K) →
      encodeBoard K d Hs bs1 = encodeBoard K d Hs bs2 → bs1 = bs2 := by
  intro Hs
  induction Hs with
  | nil =>
    intro bs1 bs2 hl1 hl2 h1 h2 he
    rw [List.length_eq_zero.mp hl1, List.length_eq_zero.mp hl2]
  | cons H Hs ih =>
    intro bs1 bs2 hl1 hl2 h1 h2 he
    cases bs1 with
    | nil => simp at hl1
    | cons b1 t1 =>
      cases bs2 with
      | nil => simp at hl2
      | cons b2 t2 =>
        have hb1 := h1 0 (by simp)
        have hb2 := h2 0 (by simp)
        simp only [List.getD_cons_zero] at hb1 hb2
        have hbl1 : encodeList K d b1 < K ^ H := by
          have ha := encodeList_lt b1 fun a hx => (hb1.2 a hx).2
          have hb := Nat.pow_le_pow_right hK hb1.1
          omega
        have hbl2 : encodeList K d b2 < K ^ H := by
          have ha := encodeList_lt b2 fun a hx => (hb2.2 a hx).2
          have hb := Nat.pow_le_pow_right hK hb2.1
          omega
        have he' : encodeList K d b1 + K ^ H * encodeBoard K d Hs t1
            = encodeList K d b2 + K ^ H * encodeBoard K d Hs t2 := he
        have hmod := congrArg (fun n => n % K ^ H) he'
        simp only [Nat.add_mul_mod_self_left] at hmod
        rw [Nat.mod_eq_of_lt hbl1, Nat.mod_eq_of_lt hbl2] at hmod
        have hbeq : b1 = b2 :=
          encodeList_inj hinj (fun a hx => hb1.2 a hx) (fun a hx => hb2.2 a hx)
            hmod
        have hKH : 0 < K ^ H := Nat.pos_pow_of_pos H (by omega)
        have hteq : t1 = t2 := by
          refine ih t1 t2 (by simpa using hl1) (by simpa using hl2) ?_ ?_ ?_
          · intro k hk
            have := h1 (k + 1) (by simpa using Nat.succ_lt_succ hk)
            simpa using this
          · intro k hk
            have := h2 (k + 1) (by simpa using Nat.succ_lt_succ hk)
            simpa using this
          · have : K ^ H * encodeBoard K d Hs t1
                = K ^ H * encodeBoard K d Hs t2 := by omega
            exact Nat.eq_of_mul_eq_mul_left hKH this
        rw [hbeq, hteq]

lemma nodup_bounded_length_le {colors : List α} {H : List Nat}
    (v : List (List (List α))) (hnd : v.Nodup)
    (hb : ∀ b ∈ v, BoundedBy colors H b) :
    v.length ≤ (colors.length + 2) ^ H.sum := by
  have hinj : ∀ a, a ∈ colors → ∀ b, b ∈ colors →
      List.indexOf a colors = List.indexOf b colors → a = b := by
    intro a ha b hbm hdab
    exact (List.indexOf_inj ha hbm).mp hdab
  have hdig : ∀ a, a ∈ colors →
      List.indexOf a colors + 1 < colors.length + 2 := by
    intro a ha
    have := List.indexOf_lt_length.mpr ha
    omega
  have hside : ∀ x ∈ v, ∀ k, k < x.length →
      (x.getD k []).length ≤ H.getD k 0 ∧
      ∀ a ∈ x.getD k [], a ∈ colors ∧
        List.indexOf a colors + 1 < colors.length + 2 := by
    intro x hx k hk
    obtain ⟨h1, h2⟩ := (hb x hx).2 k hk
    exact ⟨h1, fun a ha => ⟨h2 a ha, hdig a (h2 a ha)⟩⟩
  have hmapnd :
      (v.map (encodeBoard (colors.length + 2)
        (fun a => List.indexOf a colors) H)).Nodup := by
    refine List.Nodup.map_on ?_ hnd
    intro x hx y hy hxy
    exact encodeBoard_inj hinj (by omega) H x y (hb x hx).1 (hb y hy).1
      (hside x hx) (hside y hy) hxy
  have hlt : ∀ n ∈ v.map (encodeBoard (colors.length + 2)
      (fun a => List.indexOf a colors) H),
      n < (colors.length + 2) ^ H.sum := by
    intro n hn
    obtain ⟨x, hx, rfl⟩ := List.mem_map.mp hn
    refine encodeBoard_lt (by omega) H x ?_
    intro k hk
    obtain ⟨h1, h2⟩ := hside x hx k hk
    exact ⟨h1, fun a ha => (h2 a ha).2⟩
  have hcardeq := List.toFinset_card_of_nodup hmapnd
  have hsub : (v.map (encodeBoard (colors.length + 2)
      (fun a => List.indexOf a colors) H)).toFinset
        ⊆ Finset.range ((colors.length + 2) ^ H.sum) := by
    intro n hn
    rw [List.mem_toFinset] at hn
    rw [Finset.mem_range]
    exact hlt n hn
  have hcard := Finset.card_le_card hsub
  rw [hcardeq, Finset.card_range, List.length_map] at hcard
  exact hcard

lemma zipWith_max_getD {bases : List (List α)} {heights : List Nat}
    (hlen : bases.length = heights.length) {k : Nat} (hk : k < bases.length) :
    (List.zipWith max (bases.map List.length) heights).getD k 0
      = max (bases.getD k []).length (heights.getD k 0) := by
  have hk2 : k < (List.zipWith max (bases.map List.length) heights).length := by
    rw [List.length_zipWith, List.length_map]
    omega
  have hkm : k < (bases.map List.length).length := by
    rw [List.length_map]
    omega
  have hkh : k < heights.length := by omega
  rw [List.getD_eq_getElem _ _ hk2, List.getElem_zipWith,
    List.getD_eq_getElem _ _ hk, List.getD_eq_getElem _ _ hkh,
    List.getElem_map]

lemma BoundedBy_start (bases : List (List α)) (heights : List Nat)
    (hlen : bases.length = heights.length) :
    BoundedBy bases.flatten.dedup
      (List.zipWith max (bases.map List.length) heights) bases := by
  constructor
  · rw [List.length_zipWith, List.length_map]
    omega
  · intro k hk
    constructor
    · rw [zipWith_max_getD hlen hk]
      exact le_max_left _ _
    · intro x hx
      rw [List.mem_dedup, List.mem_flatten]
      refine ⟨bases.getD k [], ?_, hx⟩
      rw [List.getD_eq_getElem _ _ hk]
      exact List.getElem_mem hk

lemma BoundedBy_step {colors : List α} {H heights : List Nat}
    {b b' : List (List α)} (hH : ∀ k, heights.getD k 0 ≤ H.getD k 0)
    (hb : BoundedBy colors H b) (hmem : b' ∈ nextStates b heights) :
    BoundedBy colors H b' := by
  obtain ⟨⟨i, j, c⟩, hm, rfl⟩ := mem_nextStates.mp hmem
  obtain ⟨hi, hj, hij, hne, hcol, hc1, hc2⟩ := mem_specForwardMoves.mp hm
  obtain ⟨hlen, hkk⟩ := hb
  have hcf : c ≤ heights.getD j 0 - (b.getD j []).length :=
    le_trans hc2 (min_le_right _ _)
  have hctr : c ≤ topRun (b.getD i []) := le_trans hc2 (min_le_left _ _)
  have hclen : c ≤ (b.getD i []).length := le_trans hctr (topRun_le_length _)
  dsimp only
  constructor
  · rw [length_applyTransfer]
    exact hlen
  · intro k hk'
    rw [length_applyTransfer] at hk'
    by_cases hki : k = i
    · subst hki
      rw [getD_applyTransfer_src c hij hk']
      have h1 := (hkk k hk').1
      refine ⟨?_, fun x hx => (hkk k hk').2 x (List.mem_of_mem_take hx)⟩
      have h2 := List.length_take ((b.getD k []).length - c) (b.getD k [])
      omega
    · by_cases hkj : k = j
      · subst hkj
        rw [getD_applyTransfer_tgt c hk']
        constructor
        · rw [List.length_append, List.length_drop]
          have h1 := hH k
          omega
        · intro x hx
          rcases List.mem_append.mp hx with h | h
          · exact (hkk k hk').2 x h
          · exact (hkk i hi).2 x (List.mem_of_mem_drop h)
      · rw [getD_applyTransfer_other c hki hkj]
        exact hkk k hk'

lemma BoundedBy_reach {colors : List α} {H heights : List Nat}
    {start b : List (List α)} (hH : ∀ k, heights.getD k 0 ≤ H.getD k 0)
    (hstart : BoundedBy colors H start) (h : ReachB heights start b) :
    BoundedBy colors H b := by
  induction h with
  | refl => exact hstart
  | tail hr hstep ih => exact BoundedBy_step hH ih hstep

/-! ### The breadth-first search loop -/

lemma pushStates_spec (ns : List (List (List α)))
    (q v : List (List (List α))) (e : Nat) :
    ∃ news, pushStates ns (q, v, e) = (q ++ news, v ++ news, e + ns.length) ∧
      news.Nodup ∧ (∀ n ∈ news, n ∈ ns ∧ n ∉ v) ∧
      (∀ n ∈ ns, n ∈ v ∨ n ∈ news) := by
  induction ns generalizing q v e with
  | nil => exact ⟨[], by simp [pushStates], by simp, by simp, by simp⟩
  | cons n ns ih =>
    by_cases hn : n ∈ v
    · obtain ⟨news, h1, h2, h3, h4⟩ := ih q v (e + 1)
      refine ⟨news, ?_, h2, ?_, ?_⟩
      · show pushStates (n :: ns) (q, v, e) = _
        rw [pushStates, if_pos hn, h1]
        have he : e + 1 + ns.length = e + (n :: ns).length := by
          simp [List.length_cons]
          omega
        rw [he]
      · intro m hm
        exact ⟨List.mem_cons_of_mem n (h3 m hm).1, (h3 m hm).2⟩
      · intro m hm
        rcases List.mem_cons.mp hm with h | h
        · exact Or.inl (h ▸ hn)
        · exact h4 m h
    · obtain ⟨news, h1, h2, h3, h4⟩ := ih (q ++ [n]) (v ++ [n]) (e + 1)
      refine ⟨n :: news, ?_, ?_, ?_, ?_⟩
      · show pushStates (n :: ns) (q, v, e) = _
        rw [pushStates, if_neg hn, h1]
        have he : e + 1 + ns.length = e + (n :: ns).length := by
          simp [List.length_cons]
          omega
        rw [he, List.append_assoc, List.append_assoc]
        rfl
      · rw [List.nodup_cons]
        refine ⟨fun hc => ?_, h2⟩
        have := (h3 n hc).2
        simp at this
      · intro m hm
        rcases List.mem_cons.mp hm with h | h
        · subst h
          exact ⟨List.mem_cons_self m ns, hn⟩
        · obtain ⟨hm1, hm2⟩ := h3 m h
          refine ⟨List.mem_cons_of_mem n hm1, fun hc => hm2 ?_⟩
          simp [hc]
      · intro m hm
        rcases List.mem_cons.mp hm with h | h
        · exact Or.inr (by simp [h])
        · rcases h4 m h with h5 | h5
          · rcases List.mem_append.mp h5 with h6 | h6
            · exact Or.inl h6
            · simp at h6
              exact Or.inr (by simp [h6])
          · exact Or.inr (List.mem_cons_of_mem n h5)

lemma bfsAux_correct {heights : List Nat} {start : List (List α)} {N : Nat}
    (hN : ∀ v : List (List (List α)), v.Nodup →
      (∀ b ∈ v, ReachB heights start b) → v.length ≤ N) :
    ∀ fuel q v e,
      (∀ b ∈ v, ReachB heights start b) →
      (∀ b ∈ q, b ∈ v) →
      v.Nodup → q.Nodup →
      (∀ b ∈ v, b ∉ q → solvedState b heights = false ∧
        ∀ s ∈ nextStates b heights, s ∈ v) →
      start ∈ v →
      q.length + (N - v.length) < fuel →
      ∃ r e', bfsAux heights fuel q v e = some (r, e') ∧
        (r = true → ∃ b, ReachB heights start b ∧
          solvedState b heights = true) ∧
        (r = false → ∀ b, ReachB heights start b →
          solvedState b heights = false) := by
  intro fuel
  induction fuel with
  | zero =>
    intro q v e hreach hqv hvnd hqnd hexp hstart hfuel
    omega
  | succ fuel ih =>
    intro q v e hreach hqv hvnd hqnd hexp hstart hfuel
    cases q with
    | nil =>
      refine ⟨false, e, rfl, fun h => by simp at h, fun _ => ?_⟩
      have hmemv : ∀ b, ReachB heights start b → b ∈ v := by
        intro b hb
        induction hb with
        | refl => exact hstart
        | tail hr hstep ihx => exact (hexp _ ihx (by simp)).2 _ hstep
      exact fun b hb => (hexp b (hmemv b hb) (by simp)).1
    | cons cur rest =>
      by_cases hcur : solvedState cur heights = true
      · refine ⟨true, e, ?_, fun _ => ⟨cur, hreach cur (hqv cur (by simp)), hcur⟩,
          fun h => by simp at h⟩
        rw [bfsAux, if_pos hcur]
      · obtain ⟨news, hps, hnd, hmemnews, hcover⟩ :=
          pushStates_spec (nextStates cur heights) rest v e
        have hcurv : cur ∈ v := hqv cur (by simp)
        have hcurreach : ReachB heights start cur := hreach cur hcurv
        have hrestv : ∀ b ∈ rest, b ∈ v := fun b hb => hqv b (by simp [hb])
        have hrestnd : rest.Nodup := (List.nodup_cons.mp hqnd).2
        have hcurrest : cur ∉ rest := (List.nodup_cons.mp hqnd).1
        have hnewsv : ∀ n ∈ news, n ∉ v := fun n hn => (hmemnews n hn).2
        have hreach' : ∀ b ∈ v ++ news, ReachB heights start b := by
          intro b hb
          rcases List.mem_append.mp hb with h | h
          · exact hreach b h
          · exact Relation.ReflTransGen.tail hcurreach (hmemnews b h).1
        have hqv' : ∀ b ∈ rest ++ news, b ∈ v ++ news := by
          intro b hb
          rcases List.mem_append.mp hb with h | h
          · exact List.mem_append.mpr (Or.inl (hrestv b h))
          · exact List.mem_append.mpr (Or.inr h)
        have hvnd' : (v ++ news).Nodup := by
          refine List.Nodup.append hvnd hnd ?_
          intro x hx hx2
          exact hnewsv x hx2 hx
        have hqnd' : (rest ++ news).Nodup := by
          refine List.Nodup.append hrestnd hnd ?_
          intro x hx hx2
          exact hnewsv x hx2 (hrestv x hx)
        have hexp' : ∀ b ∈ v ++ news, b ∉ rest ++ news →
            solvedState b heights = false ∧
            ∀ s ∈ nextStates b heights, s ∈ v ++ news := by
          intro b hb hbq
          have hbnrest : b ∉ rest := fun h =>
            hbq (List.mem_append.mpr (Or.inl h))
          have hbnnews : b ∉ news := fun h =>
            hbq (List.mem_append.mpr (Or.inr h))
          rcases List.mem_append.mp hb with h | h
          · by_cases hbc : b = cur
            · subst hbc
              refine ⟨by simpa using hcur, ?_⟩
              intro s hs
              rcases hcover s hs with h2 | h2
              · exact List.mem_append.mpr (Or.inl h2)
              · exact List.mem_append.mpr (Or.inr h2)
            · have hbold : b ∉ cur :: rest := by
                intro hc
                rcases List.mem_cons.mp hc with h2 | h2
                · exact hbc h2
                · exact hbnrest h2
              obtain ⟨h1, h2⟩ := hexp b h hbold
              exact ⟨h1, fun s hs => List.mem_append.mpr (Or.inl (h2 s hs))⟩
          · exact absurd h hbnnews
        have hstart' : start ∈ v ++ news := List.mem_append.mpr (Or.inl hstart)
        have hlenv' : (v ++ news).length ≤ N :=
          hN (v ++ news) hvnd' hreach'
        have hfuel' : (rest ++ news).length + (N - (v ++ news).length) < fuel := by
          rw [List.length_append, List.length_append]
          have hvle : v.length ≤ N := hN v hvnd hreach
          rw [List.length_append] at hlenv'
          simp only [List.length_cons] at hfuel
          omega
        obtain ⟨r, e', hres, htrue, hfalse⟩ :=
          ih (rest ++ news) (v ++ news) (e + (nextStates cur heights).length)
            hreach' hqv' hvnd' hqnd' hexp' hstart' hfuel'
        refine ⟨r, e', ?_, htrue, hfalse⟩
        rw [bfsAux, if_neg hcur, hps]
        exact hres

lemma parseLevel_length (level : List (List (Nat × List α))) :
    (parseLevel level).1.length = (parseLevel level).2.length := by
  unfold parseLevel
  simp only [List.length_map]

lemma solve_level_spec (level : List (List (Nat × List α))) :
    ∃ r e,
      solve_level level = some (r, e) ∧
      (r = true → ∃ b, ReachB (parseLevel level).2 (parseLevel level).1 b ∧
        solvedState b (parseLevel level).2 = true) ∧
      (r = false → ∀ b, ReachB (parseLevel level).2 (parseLevel level).1 b →
        solvedState b (parseLevel level).2 = false) := by
  have hlen := parseLevel_length level
  have hH : ∀ k, (parseLevel level).2.getD k 0
      ≤ (List.zipWith max ((parseLevel level).1.map List.length)
          (parseLevel level).2).getD k 0 := by
    intro k
    by_cases hk : k < (parseLevel level).1.length
    · rw [zipWith_max_getD hlen hk]
      exact le_max_right _ _
    · rw [List.getD_eq_default _ _ (by omega),
        List.getD_eq_default _ _ (by
          rw [List.length_zipWith, List.length_map]
          omega)]
  have hN : ∀ v : List (List (List α)), v.Nodup →
      (∀ b ∈ v, ReachB (parseLevel level).2 (parseLevel level).1 b) →
      v.length ≤ ((parseLevel level).1.flatten.dedup.length + 2)
        ^ (List.zipWith max ((parseLevel level).1.map List.length)
            (parseLevel level).2).sum := by
    intro v hnd hreach
    refine nodup_bounded_length_le v hnd ?_
    intro b hb
    exact BoundedBy_reach hH (BoundedBy_start _ _ hlen) (hreach b hb)
  have hNpos : 1 ≤ ((parseLevel level).1.flatten.dedup.length + 2)
      ^ (List.zipWith max ((parseLevel level).1.map List.length)
          (parseLevel level).2).sum :=
    Nat.one_le_pow _ _ (by omega)
  obtain ⟨r, e, hres, htrue, hfalse⟩ :=
    bfsAux_correct hN
      (((parseLevel level).1.flatten.dedup.length + 2)
        ^ (List.zipWith max ((parseLevel level).1.map List.length)
            (parseLevel level).2).sum + 1)
      [(parseLevel level).1] [(parseLevel level).1] 0
      (by
        intro b hb
        rw [List.mem_singleton.mp hb]
        exact Relation.ReflTransGen.refl)
      (fun b hb => hb)
      (List.nodup_singleton _) (List.nodup_singleton _)
      (by
        intro b hb hnb
        exact absurd hb hnb)
      (by simp)
      (by
        simp only [List.length_singleton]
        omega)
  refine ⟨r, e, ?_, htrue, hfalse⟩
  rw [← hres]
  rfl

/-- C2: `solve_level` always returns an ordinary `(solved, explored)`
value (the fuel `solve_level` supplies never runs out, so no error is
raised), and it returns `solved = true` exactly when some solved board is
reachable from the level's board by zero or more legal forward moves;
otherwise it returns `(false, explored)`. -/
theorem claim_C2_solver_decides_reachability
    (level : List (List (Nat × List α))) :
    (∃ r e, solve_level level = some (r, e)) ∧
    ((∃ e, solve_level level = some (true, e)) ↔
      ∃ b, ReachB (parseLevel level).2 (parseLevel level).1 b ∧
        solvedState b (parseLevel level).2 = true) ∧
    ((¬ ∃ b, ReachB (parseLevel level).2 (parseLevel level).1 b ∧
        solvedState b (parseLevel level).2 = true) →
      ∃ e, solve_level level = some (false, e)) := by
  obtain ⟨r, e, hres, htrue, hfalse⟩ := solve_level_spec level
  refine ⟨⟨r, e, hres⟩, ⟨?_, ?_⟩, ?_⟩
  · rintro ⟨e', he'⟩
    rw [hres] at he'
    have hr : r = true := by
      cases r with
      | true => rfl
      | false => simp at he'
    exact htrue hr
  · rintro ⟨b, hb, hs⟩
    cases r with
    | true => exact ⟨e, hres⟩
    | false =>
      have hcontra := hfalse rfl b hb
      rw [hs] at hcontra
      simp at hcontra
  · intro hnone
    cases r with
    | true => exact absurd (htrue rfl) hnone
    | false => exact ⟨e, hres⟩

lemma bfsAuxV_fst (heights : List Nat) :
    ∀ (fuel : Nat) (q v : List (List (List α))) (e : Nat),
      bfsAux heights fuel q v e
        = (bfsAuxV heights fuel q v e).map Prod.fst := by
  intro fuel
  induction fuel with
  | zero => intro q v e; rfl
  | succ fuel ih =>
    intro q v e
    cases q with
    | nil => rfl
    | cons cur rest =>
      by_cases hcur : solvedState cur heights = true
      · rw [bfsAux, bfsAuxV, if_pos hcur, if_pos hcur]
        rfl
      · rw [bfsAux, bfsAuxV, if_neg hcur, if_neg hcur]
        exact ih _ _ _

lemma bfsAuxV_nodup (heights : List Nat) :
    ∀ (fuel : Nat) (q v : List (List (List α))) (e : Nat)
      (res : Bool × Nat) (vf : List (List (List α))), v.Nodup →
      bfsAuxV heights fuel q v e = some (res, vf) → vf.Nodup := by
  intro fuel
  induction fuel with
  | zero =>
    intro q v e res vf hnd h
    exact Option.noConfusion h
  | succ fuel ih =>
    intro q v e res vf hnd h
    cases q with
    | nil =>
      rw [bfsAuxV, Option.some_inj] at h
      rw [← (Prod.mk.injEq _ _ _ _).mp h |>.2]
      exact hnd
    | cons cur rest =>
      by_cases hcur : solvedState cur heights = true
      · rw [bfsAuxV, if_pos hcur, Option.some_inj] at h
        rw [← (Prod.mk.injEq _ _ _ _).mp h |>.2]
        exact hnd
      · rw [bfsAuxV, if_neg hcur] at h
        obtain ⟨news, hps, hnewsnd, hmemnews, -⟩ :=
          pushStates_spec (nextStates cur heights) rest v e
        rw [hps] at h
        refine ih _ _ _ _ _ ?_ h
        refine List.Nodup.append hnd hnewsnd ?_
        intro x hx hx2
        exact (hmemnews x hx2).2 hx

/-- C8: the search in `solve_level` terminates for every input level — the
fuel bound `solve_level` supplies is never exhausted, an ordinary
`(solved, explored)` value is always produced — and no state is ever
enqueued or expanded twice: the visited list accumulated by the search
(`bfsAuxV` is the search loop instrumented to return it) has no
duplicates, i.e. each canonical state enters the visited set at most
once. -/
theorem claim_C8_termination_no_revisit
    (level : List (List (Nat × List α))) :
    ∃ (r : Bool) (e : Nat) (vf : List (List (List α))),
      bfsAuxV (parseLevel level).2
          (fuelBound (parseLevel level).1 (parseLevel level).2)
          [(parseLevel level).1] [(parseLevel level).1] 0
        = some ((r, e), vf) ∧
      vf.Nodup ∧ solve_level level = some (r, e) := by
  obtain ⟨r, e, hres, -, -⟩ := solve_level_spec level
  have hagree := bfsAuxV_fst (parseLevel level).2
    (fuelBound (parseLevel level).1 (parseLevel level).2)
    [(parseLevel level).1] [(parseLevel level).1] 0
  have h2 : (bfsAuxV (parseLevel level).2
      (fuelBound (parseLevel level).1 (parseLevel level).2)
      [(parseLevel level).1] [(parseLevel level).1] 0).map Prod.fst
        = some (r, e) := by
    rw [← hagree]
    exact hres
  obtain ⟨⟨res, vf⟩, ha, hfa⟩ := Option.map_eq_some'.mp h2
  have hres' : res = (r, e) := hfa
  subst hres'
  exact ⟨r, e, vf, ha,
    bfsAuxV_nodup _ _ _ _ _ _ _ (List.nodup_singleton _) ha, hres⟩

/-- C1: the scramble guarantee fails on the code.  Starting from the solved
board `[[a,a,a],[b,b,b],[]]` of height 3, the four reverse candidate moves
`(0,2,1), (1,0,1), (1,2,2), (0,1,2)` — each among the moves `scramble`
enumerates at its step — produce the board `[[a],[a,b],[a,b,b]]`, and
`solve_level` on the level built from that board returns `(false, 2)`:
the scrambled board is not solvable, contradicting the claim (and the
`scramble` docstring) that solvability is preserved. -/
theorem claim_C1_scramble_reaches_unsolvable :
    solvedState [["a","a","a"],["b","b","b"],([] : List String)] [3,3,3] = true ∧
    scrambleRun 3 [["a","a","a"],["b","b","b"],([] : List String)]
        [(0,2,1),(1,0,1),(1,2,2),(0,1,2)]
      = some [["a"],["a","b"],["a","b","b"]] ∧
    solve_level [[(3,["a"]),(3,["a","b"]),(3,["a","b","b"])]]
      = some (false, 2) := by
  refine ⟨by decide, by decide, by decide⟩

/-- C5: `back_propagate` raises exactly on unsolved inputs, and in
particular raises on `bases = [[a],[a],[]]`, `heights = [2,2,2]`. -/
theorem claim_C5_error_iff_unsolved (bases : List (List α)) (heights : List Nat) :
    (raisesOn (back_propagate bases heights) = true ↔
      solvedState bases heights = false) ∧
    raisesOn (back_propagate [["a"],["a"],([] : List String)] [2,2,2]) = true := by
  constructor
  · unfold back_propagate
    by_cases h : solvedState bases heights = false <;> simp [h, raisesOn]
  · decide

/-- C9: `back_propagate` on `[[a,a,a],[b,b,b],[]]` with heights `[3,3,3]`
returns exactly the four boards moving one or two `a`s, or one or two
`b`s, onto the empty base (listed in the source's enumeration order). -/
theorem claim_C9_three_high_example :
    back_propagate [["a","a","a"],["b","b","b"],([] : List String)] [3,3,3]
      = Except.ok
          [[["a","a"],["b","b","b"],["a"]],
           [["a"],["b","b","b"],["a","a"]],
           [["a","a","a"],["b","b"],["b"]],
           [["a","a","a"],["b"],["b","b"]]] := by
  rfl

/-- C4 fails as stated: `U = [[],[a,a]]` is a one-step predecessor of the
solved board `S = [[a,a],[]]` with heights `[2,2,2]` — the forward move
`(1,0,2)` is legal on `U` and yields `S` — yet `back_propagate S` returns
only `[[a],[a]]`, omitting `U` (it is excluded for being solved itself). -/
theorem claim_C4_counterexample :
    solvedState [["a","a"],([] : List String)] [2,2] = true ∧
    (1,0,2) ∈ specForwardMoves [([] : List String),["a","a"]] [2,2] ∧
    applyTransfer [([] : List String),["a","a"]] 1 0 2 = [["a","a"],[]] ∧
    back_propagate [["a","a"],([] : List String)] [2,2]
      = Except.ok [[["a"],["a"]]] ∧
    ¬ ([([] : List String),["a","a"]] ∈ [[["a"],["a"]]]) := by
  refine ⟨by decide, by decide, by decide, by rfl, by decide⟩

end ColorSort
